import Mathlib

/-!
Verification of the assembly-statistics engine of `scripts/assembly_stats.py`
(Brig-Bayo/flye-genome-assembly).

The Python code is embedded shallowly:
* machine floats used for the Nx/Lx targets and the GC/N percentages are
  modelled as exact rationals (`ℚ`);
* a sequence record is an identifier plus a residue string;
* the file system and the external FASTA parser (`Bio.SeqIO`) are abstract
  parameters of the loader;
* Python exceptions (`FileNotFoundError`, `ValueError`) become an error type.
-/

/-- A FASTA record: identifier and residue string
(`SeqIO` record, `len(seq)` is the residue-string length). -/
structure SequenceRecord where
  id : String
  seq : String
deriving DecidableEq, Repr

/-- `lengths = [len(seq) for seq in self.sequences]` (line 50). -/
def recordLengths (recs : List SequenceRecord) : List ℕ :=
  recs.map (fun r => r.seq.length)

/-- `lengths.sort(reverse=True)` (line 51): sort descending. -/
def sortDesc (l : List ℕ) : List ℕ :=
  l.insertionSort (· ≥ ·)

/-- Loop body of `calculate_nx` (lines 59-64): walk the list accumulating
lengths; return the length at which the running sum first reaches the
target, and 0 if the loop finishes without crossing. -/
def nxGo (target : ℚ) (cumulative : ℕ) : List ℕ → ℕ
  | [] => 0
  | l :: rest =>
      if target ≤ ((cumulative + l : ℕ) : ℚ) then l
      else nxGo target (cumulative + l) rest

/-- `calculate_nx(lengths, x)` (lines 57-64): `target = total_length * (x/100)`,
then the cumulative walk.  `total_length` is the closed-over total
(line 53). -/
def calculate_nx (total_length : ℕ) (lengths : List ℕ) (x : ℚ) : ℕ :=
  nxGo ((total_length : ℚ) * (x / 100)) 0 lengths

/-- Loop body of `_calculate_lx` (lines 97-102): `i` is the number of
records consumed so far; return the 1-based rank at the first crossing,
and the total count when the loop finishes (`return len(lengths)`). -/
def lxGo (target : ℚ) (cumulative : ℕ) (i : ℕ) : List ℕ → ℕ
  | [] => i
  | l :: rest =>
      if target ≤ ((cumulative + l : ℕ) : ℚ) then i + 1
      else lxGo target (cumulative + l) (i + 1) rest

/-- `_calculate_lx(lengths, x)` (lines 94-102):
`target = sum(lengths) * (x/100)`, then the cumulative walk. -/
def calculate_lx (lengths : List ℕ) (x : ℚ) : ℕ :=
  lxGo ((lengths.sum : ℚ) * (x / 100)) 0 0 lengths

/-- `max(lengths) if lengths else 0` (line 81). -/
def listMax (l : List ℕ) : ℕ := l.foldr max 0

/-- `min(lengths) if lengths else 0` (line 82). -/
def listMin (l : List ℕ) : ℕ :=
  match l with
  | [] => 0
  | h :: t => t.foldr min h

/-- `np.median(lengths) if lengths else 0` (line 84): sort ascending and
take the middle element, or the mean of the two middle elements. -/
def median (l : List ℕ) : ℚ :=
  let s := l.insertionSort (· ≤ ·)
  let n := s.length
  if n = 0 then 0
  else if n % 2 = 1 then (s.getD (n / 2) 0 : ℚ)
  else ((s.getD (n / 2 - 1) 0 : ℚ) + (s.getD (n / 2) 0 : ℚ)) / 2

/-- `seq.seq.count(c)`: occurrences of the character `c` in a residue
string (Python `str.count` for a single character). -/
def countChar (s : String) (c : Char) : ℕ := s.data.count c

/-- `total_gc` (lines 67-69): sum over records of the counts of
`'G'`, `'C'`, `'g'`, `'c'`. -/
def totalGCcount (recs : List SequenceRecord) : ℕ :=
  (recs.map (fun r =>
    countChar r.seq 'G' + countChar r.seq 'C' +
    countChar r.seq 'g' + countChar r.seq 'c')).sum

/-- `total_n` (lines 73-74): sum over records of the counts of `'N'`, `'n'`. -/
def totalNcount (recs : List SequenceRecord) : ℕ :=
  (recs.map (fun r => countChar r.seq 'N' + countChar r.seq 'n')).sum

/-- The computed statistics record (`self.stats`, lines 77-92), minus the
`file` path, which is carried separately; the C10 development models the
full keyed dictionary. -/
structure MetricsBundle where
  num_contigs : ℕ
  total_length : ℕ
  longest_contig : ℕ
  shortest_contig : ℕ
  mean_length : ℚ
  median_length : ℚ
  n50 : ℕ
  n90 : ℕ
  l50 : ℕ
  l90 : ℕ
  gc_content : ℚ
  n_content : ℚ
  lengths : List ℕ
deriving DecidableEq, Repr

/-- `_calculate_stats` (lines 48-92) as a pure function of the loaded
records. -/
def calculateStats (recs : List SequenceRecord) : MetricsBundle :=
  let lengths := sortDesc (recordLengths recs)
  let total_length := lengths.sum
  let num_contigs := lengths.length
  let total_gc := totalGCcount recs
  let gc_content : ℚ :=
    if 0 < total_length then ((total_gc : ℚ) / (total_length : ℚ)) * 100 else 0
  let total_n := totalNcount recs
  let n_content : ℚ :=
    if 0 < total_length then ((total_n : ℚ) / (total_length : ℚ)) * 100 else 0
  { num_contigs := num_contigs
    total_length := total_length
    longest_contig := listMax lengths
    shortest_contig := listMin lengths
    mean_length := if 0 < num_contigs then (total_length : ℚ) / (num_contigs : ℚ) else 0
    median_length := median lengths
    n50 := calculate_nx total_length lengths 50
    n90 := calculate_nx total_length lengths 90
    l50 := calculate_lx lengths 50
    l90 := calculate_lx lengths 90
    gc_content := gc_content
    n_content := n_content
    lengths := lengths }

/-! ### The first-crossing characterization of the cumulative-sum walk

Both `calculate_nx` and `_calculate_lx` walk the list accumulating lengths
and act at the first position where the running sum reaches the target.
`crossesAt target c s k` says the walk started with accumulator `c`
crosses the target within the first `k+1` elements of `s`. -/

def crossesAt (target : ℚ) (c : ℕ) (s : List ℕ) (k : ℕ) : Prop :=
  target ≤ ((c + (s.take (k + 1)).sum : ℕ) : ℚ)

instance (target : ℚ) (c : ℕ) (s : List ℕ) (k : ℕ) :
    Decidable (crossesAt target c s k) := by
  unfold crossesAt; infer_instance

/-- Joint characterization of the two walks: either there is a first
crossing index `k`, and then `nxGo` returns the element at `k` while
`lxGo` returns `i + (k + 1)`; or no prefix crosses, and then `nxGo`
returns 0 while `lxGo` returns `i + s.length`. -/
theorem go_first_crossing (target : ℚ) :
    ∀ (s : List ℕ) (c : ℕ),
      (∃ k, k < s.length ∧ crossesAt target c s k ∧
        (∀ j, j < k → ¬ crossesAt target c s j) ∧
        nxGo target c s = s.getD k 0 ∧
        (∀ i, lxGo target c i s = i + (k + 1))) ∨
      ((∀ k, k < s.length → ¬ crossesAt target c s k) ∧
        nxGo target c s = 0 ∧
        (∀ i, lxGo target c i s = i + s.length)) := by
  intro s
  induction s with
  | nil =>
      intro c
      right
      refine ⟨fun k hk => absurd hk (by simp), rfl, fun i => by simp [lxGo]⟩
  | cons l rest ih =>
      intro c
      by_cases h0 : target ≤ ((c + l : ℕ) : ℚ)
      · left
        refine ⟨0, Nat.succ_pos _, ?_, fun j hj => absurd hj (Nat.not_lt_zero j), ?_, ?_⟩
        · simpa [crossesAt] using h0
        · simp only [nxGo]; rw [if_pos h0]; simp
        · intro i; simp only [lxGo]; rw [if_pos h0]
      · have shift : ∀ k, crossesAt target (c + l) rest k ↔
            crossesAt target c (l :: rest) (k + 1) := by
          intro k
          unfold crossesAt
          rw [List.take_succ_cons, List.sum_cons]
          constructor <;> intro h <;> [skip; skip] <;>
            · calc target ≤ _ := h
              _ = _ := by push_cast; ring_nf
        rcases ih (c + l) with ⟨k, hk, hcr, hmin, hnx, hlx⟩ | ⟨hno, hnx, hlx⟩
        · left
          refine ⟨k + 1, Nat.succ_lt_succ hk, (shift k).mp hcr, ?_, ?_, ?_⟩
          · intro j hj
            cases j with
            | zero => simpa [crossesAt] using h0
            | succ j' =>
                intro hc
                exact hmin j' (Nat.lt_of_succ_lt_succ hj) ((shift j').mpr hc)
          · simp only [nxGo]; rw [if_neg h0]; simpa using hnx
          · intro i
            have := hlx (i + 1)
            simp only [lxGo]; rw [if_neg h0]
            omega
        · right
          refine ⟨?_, by simp only [nxGo]; rw [if_neg h0]; exact hnx, ?_⟩
          · intro k hk
            cases k with
            | zero => simpa [crossesAt] using h0
            | succ k' =>
                intro hc
                exact hno k' (by simpa using Nat.lt_of_succ_lt_succ hk)
                  ((shift k').mpr hc)
          · intro i
            have := hlx (i + 1)
            simp only [lxGo, List.length_cons]; rw [if_neg h0]
            omega

/-! ### Properties of the descending sort -/

theorem sortDesc_sorted (l : List ℕ) : List.Sorted (· ≥ ·) (sortDesc l) :=
  List.sorted_insertionSort (· ≥ ·) l

theorem sortDesc_perm (l : List ℕ) : (sortDesc l).Perm l :=
  List.perm_insertionSort (· ≥ ·) l

theorem sortDesc_sum (l : List ℕ) : (sortDesc l).sum = l.sum :=
  (sortDesc_perm l).sum_eq

theorem sortDesc_length (l : List ℕ) : (sortDesc l).length = l.length :=
  (sortDesc_perm l).length_eq

/-- A list sorted descending is antitone at its indices. -/
theorem sorted_getD_antitone {s : List ℕ} (hs : List.Sorted (· ≥ ·) s)
    {j k : ℕ} (hjk : j ≤ k) (hk : k < s.length) :
    s.getD k 0 ≤ s.getD j 0 := by
  have hj : j < s.length := lt_of_le_of_lt hjk hk
  rw [List.getD_eq_getElem _ _ hj, List.getD_eq_getElem _ _ hk]
  exact hs.rel_get_of_le (a := ⟨j, hj⟩) (b := ⟨k, hk⟩) (by exact_mod_cast hjk)

/-- When the target does not exceed the total, the walk crosses somewhere. -/
theorem exists_crossing_of_le_sum {target : ℚ} {s : List ℕ}
    (hne : s ≠ []) (hts : target ≤ (s.sum : ℚ)) :
    ∃ k, k < s.length ∧ crossesAt target 0 s k ∧
      (∀ j, j < k → ¬ crossesAt target 0 s j) ∧
      nxGo target 0 s = s.getD k 0 ∧
      (∀ i, lxGo target 0 i s = i + (k + 1)) := by
  rcases go_first_crossing target s 0 with h | ⟨hno, _, _⟩
  · exact h
  · exfalso
    have hlen : 0 < s.length := List.length_pos.mpr hne
    apply hno (s.length - 1) (by omega)
    unfold crossesAt
    have : s.length - 1 + 1 = s.length := by omega
    rw [this, List.take_length]
    simpa using hts

/-- A smaller target crosses wherever a larger target does. -/
theorem crossesAt_of_le {t₁ t₂ : ℚ} {c : ℕ} {s : List ℕ} {k : ℕ}
    (h : t₁ ≤ t₂) (hc : crossesAt t₂ c s k) : crossesAt t₁ c s k :=
  le_trans h hc

/-- The Nx target is at most the total length when `x ≤ 100`. -/
theorem target_le_sum (L : List ℕ) {x : ℚ} (hx1 : x ≤ 100) :
    (L.sum : ℚ) * (x / 100) ≤ ((sortDesc L).sum : ℚ) := by
  rw [sortDesc_sum]
  have h1 : x / 100 ≤ 1 := by linarith
  have h0 : (0 : ℚ) ≤ (L.sum : ℚ) := by positivity
  calc (L.sum : ℚ) * (x / 100) ≤ (L.sum : ℚ) * 1 :=
        mul_le_mul_of_nonneg_left h1 h0
    _ = (L.sum : ℚ) := mul_one _

theorem sortDesc_ne_nil {L : List ℕ} (hne : L ≠ []) : sortDesc L ≠ [] := by
  intro h
  apply hne
  have hp := sortDesc_perm L
  rw [h] at hp
  exact hp.symm.eq_nil

/-- C1: for every non-empty list of record lengths and every `x ∈ (0,100]`,
`calculate_nx` returns the record length at the first index of the
descending-sorted list where the running cumulative sum reaches or exceeds
`total_length * x/100`; for an empty input it returns 0; and on lengths
`[100, 50, 30]` it gives `n50 = 100` and `n90 = 30`. -/
theorem calculate_nx_first_crossing (L : List ℕ) (x : ℚ)
    (hx0 : 0 < x) (hx1 : x ≤ 100) :
    (L ≠ [] → ∃ k, k < (sortDesc L).length ∧
        crossesAt ((L.sum : ℚ) * (x / 100)) 0 (sortDesc L) k ∧
        (∀ j, j < k → ¬ crossesAt ((L.sum : ℚ) * (x / 100)) 0 (sortDesc L) j) ∧
        calculate_nx L.sum (sortDesc L) x = (sortDesc L).getD k 0) ∧
    (∀ total, calculate_nx total [] x = 0) ∧
    calculate_nx 180 (sortDesc [100, 50, 30]) 50 = 100 ∧
    calculate_nx 180 (sortDesc [100, 50, 30]) 90 = 30 := by
  refine ⟨?_, fun total => rfl, ?_, ?_⟩
  · intro hne
    obtain ⟨k, hk, hcr, hmin, hnx, _⟩ :=
      exists_crossing_of_le_sum (sortDesc_ne_nil hne) (target_le_sum L hx1)
    exact ⟨k, hk, hcr, hmin, hnx⟩
  · norm_num [calculate_nx, sortDesc, List.insertionSort, List.orderedInsert, nxGo]
  · norm_num [calculate_nx, sortDesc, List.insertionSort, List.orderedInsert, nxGo]

theorem calculate_nx_first_crossing_witness :
    ∃ k, k < (sortDesc [100, 50, 30]).length ∧
      crossesAt ((([100, 50, 30] : List ℕ).sum : ℚ) * (50 / 100)) 0
        (sortDesc [100, 50, 30]) k ∧
      (∀ j, j < k → ¬ crossesAt ((([100, 50, 30] : List ℕ).sum : ℚ) * (50 / 100)) 0
        (sortDesc [100, 50, 30]) j) ∧
      calculate_nx ([100, 50, 30] : List ℕ).sum (sortDesc [100, 50, 30]) 50 =
        (sortDesc [100, 50, 30]).getD k 0 :=
  (calculate_nx_first_crossing [100, 50, 30] 50 (by norm_num) (by norm_num)).1
    (by simp)

/-- C2: for every list of record lengths and every `x ∈ (0,100]`,
`_calculate_lx` returns the 1-based rank of the first index of the
descending-sorted list whose cumulative sum reaches or exceeds
`total_length * x/100`, and the total record count when no prefix reaches
the target; on lengths `[100, 50, 30]` it gives `l50 = 1` and `l90 = 3`. -/
theorem calculate_lx_first_crossing (L : List ℕ) (x : ℚ)
    (hx0 : 0 < x) (hx1 : x ≤ 100) :
    (∀ k, k < (sortDesc L).length →
        crossesAt (((sortDesc L).sum : ℚ) * (x / 100)) 0 (sortDesc L) k →
        (∀ j, j < k → ¬ crossesAt (((sortDesc L).sum : ℚ) * (x / 100)) 0 (sortDesc L) j) →
        calculate_lx (sortDesc L) x = k + 1) ∧
    ((∀ k, k < (sortDesc L).length →
        ¬ crossesAt (((sortDesc L).sum : ℚ) * (x / 100)) 0 (sortDesc L) k) →
        calculate_lx (sortDesc L) x = (sortDesc L).length) ∧
    calculate_lx (sortDesc [100, 50, 30]) 50 = 1 ∧
    calculate_lx (sortDesc [100, 50, 30]) 90 = 3 := by
  refine ⟨?_, ?_, ?_, ?_⟩
  · intro k hk hcr hmin
    rcases go_first_crossing (((sortDesc L).sum : ℚ) * (x / 100)) (sortDesc L) 0 with
      ⟨k0, hk0, hcr0, hmin0, _, hlx0⟩ | ⟨hno0, _, _⟩
    · have hkk : k = k0 := by
        rcases lt_trichotomy k k0 with h | h | h
        · exact absurd hcr (hmin0 k h)
        · exact h
        · exact absurd hcr0 (hmin k0 h)
      subst hkk
      have := hlx0 0
      simpa [calculate_lx] using this
    · exact absurd hcr (hno0 k hk)
  · intro hno
    rcases go_first_crossing (((sortDesc L).sum : ℚ) * (x / 100)) (sortDesc L) 0 with
      ⟨k0, hk0, hcr0, _, _, _⟩ | ⟨_, _, hlx0⟩
    · exact absurd hcr0 (hno k0 hk0)
    · have := hlx0 0
      simpa [calculate_lx] using this
  · norm_num [calculate_lx, sortDesc, List.insertionSort, List.orderedInsert, lxGo]
  · norm_num [calculate_lx, sortDesc, List.insertionSort, List.orderedInsert, lxGo]

theorem calculate_lx_first_crossing_witness :
    calculate_lx (sortDesc [100, 50, 30]) 50 = 1 ∧
    calculate_lx (sortDesc [100, 50, 30]) 90 = 3 :=
  ⟨(calculate_lx_first_crossing [100, 50, 30] 50 (by norm_num) (by norm_num)).2.2.1,
   (calculate_lx_first_crossing [100, 50, 30] 90 (by norm_num) (by norm_num)).2.2.2⟩

/-! ### Monotonicity of the walks in the target -/

/-- On a descending-sorted list, a larger target yields a smaller (or equal)
Nx value. -/
theorem nxGo_anti_of_target_le {s : List ℕ} (hs : List.Sorted (· ≥ ·) s)
    {t₁ t₂ : ℚ} (h : t₁ ≤ t₂) : nxGo t₂ 0 s ≤ nxGo t₁ 0 s := by
  rcases go_first_crossing t₂ s 0 with ⟨k2, hk2, hcr2, _, hnx2, _⟩ | ⟨_, hnx2, _⟩
  · rcases go_first_crossing t₁ s 0 with ⟨k1, hk1, _, hmin1, hnx1, _⟩ | ⟨hno1, _, _⟩
    · have hk12 : k1 ≤ k2 := by
        by_contra hlt
        push_neg at hlt
        exact hmin1 k2 hlt (crossesAt_of_le h hcr2)
      rw [hnx1, hnx2]
      exact sorted_getD_antitone hs hk12 hk2
    · exact absurd (crossesAt_of_le h hcr2) (hno1 k2 hk2)
  · rw [hnx2]; exact Nat.zero_le _

/-- A larger target yields a larger (or equal) Lx value. -/
theorem lxGo_mono_of_target_le (s : List ℕ) {t₁ t₂ : ℚ} (h : t₁ ≤ t₂) :
    lxGo t₁ 0 0 s ≤ lxGo t₂ 0 0 s := by
  rcases go_first_crossing t₁ s 0 with ⟨k1, hk1, _, hmin1, _, hlx1⟩ | ⟨hno1, _, hlx1⟩
  · rcases go_first_crossing t₂ s 0 with ⟨k2, hk2, hcr2, _, _, hlx2⟩ | ⟨_, _, hlx2⟩
    · have hk12 : k1 ≤ k2 := by
        by_contra hlt
        push_neg at hlt
        exact hmin1 k2 hlt (crossesAt_of_le h hcr2)
      rw [hlx1 0, hlx2 0]
      omega
    · rw [hlx1 0, hlx2 0]
      omega
  · rcases go_first_crossing t₂ s 0 with ⟨k2, hk2, hcr2, _, _, _⟩ | ⟨_, _, hlx2⟩
    · exact absurd (crossesAt_of_le h hcr2) (hno1 k2 hk2)
    · rw [hlx1 0, hlx2 0]

/-- The Lx walk never returns more than the record count. -/
theorem lxGo_le_length (t : ℚ) (s : List ℕ) : lxGo t 0 0 s ≤ s.length := by
  rcases go_first_crossing t s 0 with ⟨k, hk, _, _, _, hlx⟩ | ⟨_, _, hlx⟩
  · rw [hlx 0]; omega
  · rw [hlx 0]; omega

/-- The Nx/Lx targets are monotone in `x`. -/
theorem target_mono (T : ℕ) {x y : ℚ} (hxy : x ≤ y) :
    (T : ℚ) * (x / 100) ≤ (T : ℚ) * (y / 100) := by
  have h0 : (0 : ℚ) ≤ (T : ℚ) := by positivity
  have h1 : x / 100 ≤ y / 100 := by linarith
  exact mul_le_mul_of_nonneg_left h1 h0

/-- C3: for non-empty length multisets, Nx is non-increasing and Lx is
non-decreasing in `x`, Lx never exceeds the record count, and every computed
bundle satisfies `n90 ≤ n50` and `l50 ≤ l90 ≤ num_contigs`. -/
theorem nx_lx_monotone (L : List ℕ) (x y : ℚ) (recs : List SequenceRecord)
    (hne : L ≠ []) (hx0 : 0 < x) (hxy : x ≤ y) (hy : y ≤ 100) :
    calculate_nx L.sum (sortDesc L) y ≤ calculate_nx L.sum (sortDesc L) x ∧
    calculate_lx (sortDesc L) x ≤ calculate_lx (sortDesc L) y ∧
    calculate_lx (sortDesc L) y ≤ L.length ∧
    (calculateStats recs).n90 ≤ (calculateStats recs).n50 ∧
    (calculateStats recs).l50 ≤ (calculateStats recs).l90 ∧
    (calculateStats recs).l90 ≤ (calculateStats recs).num_contigs := by
  refine ⟨?_, ?_, ?_, ?_, ?_, ?_⟩
  · exact nxGo_anti_of_target_le (sortDesc_sorted L) (target_mono L.sum hxy)
  · exact lxGo_mono_of_target_le (sortDesc L) (target_mono (sortDesc L).sum hxy)
  · rw [← sortDesc_length L]
    exact lxGo_le_length _ (sortDesc L)
  · show calculate_nx _ _ 90 ≤ calculate_nx _ _ 50
    exact nxGo_anti_of_target_le (sortDesc_sorted (recordLengths recs))
      (target_mono (sortDesc (recordLengths recs)).sum (by norm_num))
  · show calculate_lx _ 50 ≤ calculate_lx _ 90
    exact lxGo_mono_of_target_le (sortDesc (recordLengths recs))
      (target_mono (sortDesc (recordLengths recs)).sum (by norm_num))
  · show calculate_lx _ 90 ≤ (sortDesc (recordLengths recs)).length
    exact lxGo_le_length _ (sortDesc (recordLengths recs))

theorem nx_lx_monotone_witness :
    calculate_nx ([100, 50, 30] : List ℕ).sum (sortDesc [100, 50, 30]) 90 ≤
      calculate_nx ([100, 50, 30] : List ℕ).sum (sortDesc [100, 50, 30]) 50 ∧
    calculate_lx (sortDesc [100, 50, 30]) 50 ≤ calculate_lx (sortDesc [100, 50, 30]) 90 ∧
    calculate_lx (sortDesc [100, 50, 30]) 90 ≤ ([100, 50, 30] : List ℕ).length :=
  let h := nx_lx_monotone [100, 50, 30] 50 90 [] (by simp) (by norm_num)
    (by norm_num) (by norm_num)
  ⟨h.1, h.2.1, h.2.2.1⟩

/-- C9: for every non-empty length list and `x ∈ (0,100]`, the Nx value is
the element of the descending-sorted lengths at 1-based rank `Lx(x)`, and
in particular is a member of the length multiset. -/
theorem nx_eq_sorted_at_lx (L : List ℕ) (x : ℚ)
    (hx0 : 0 < x) (hx1 : x ≤ 100) (hne : L ≠ []) :
    calculate_nx L.sum (sortDesc L) x =
      (sortDesc L).getD (calculate_lx (sortDesc L) x - 1) 0 ∧
    calculate_nx L.sum (sortDesc L) x ∈ L := by
  obtain ⟨k, hk, _, _, hnx, hlx⟩ :=
    exists_crossing_of_le_sum (sortDesc_ne_nil hne) (target_le_sum L hx1)
  have hlxv : calculate_lx (sortDesc L) x = k + 1 := by
    have hteq : ((sortDesc L).sum : ℚ) * (x / 100) = (L.sum : ℚ) * (x / 100) := by
      rw [sortDesc_sum]
    unfold calculate_lx
    rw [hteq, hlx 0]
    omega
  unfold calculate_nx
  constructor
  · rw [hlxv]
    simp only [Nat.add_sub_cancel]
    exact hnx
  · rw [hnx, List.getD_eq_getElem _ _ hk]
    exact (sortDesc_perm L).mem_iff.mp (List.getElem_mem hk)

theorem nx_eq_sorted_at_lx_witness :
    calculate_nx ([100, 50, 30] : List ℕ).sum (sortDesc [100, 50, 30]) 90 =
      (sortDesc [100, 50, 30]).getD
        (calculate_lx (sortDesc [100, 50, 30]) 90 - 1) 0 ∧
    calculate_nx ([100, 50, 30] : List ℕ).sum (sortDesc [100, 50, 30]) 90 ∈
      ([100, 50, 30] : List ℕ) :=
  nx_eq_sorted_at_lx [100, 50, 30] 90 (by norm_num) (by norm_num) (by simp)

/-- C4: the `lengths` field of every computed bundle is the per-record
length multiset sorted descending, and `total_length` is exactly its sum. -/
theorem calculateStats_lengths_total (recs : List SequenceRecord) :
    (calculateStats recs).lengths = sortDesc (recordLengths recs) ∧
    List.Sorted (· ≥ ·) (calculateStats recs).lengths ∧
    ((calculateStats recs).lengths).Perm (recordLengths recs) ∧
    (calculateStats recs).total_length = ((calculateStats recs).lengths).sum := by
  have hl : (calculateStats recs).lengths = sortDesc (recordLengths recs) := rfl
  refine ⟨hl, ?_, ?_, ?_⟩
  · rw [hl]; exact sortDesc_sorted _
  · rw [hl]; exact sortDesc_perm _
  · rw [hl]; rfl

/-! ### GC and N content -/

/-- Character class of the four counted GC characters (lines 67-68). -/
def isGCchar (c : Char) : Bool := c == 'G' || c == 'C' || c == 'g' || c == 'c'

/-- Character class of the two counted N characters (line 73). -/
def isNchar (c : Char) : Bool := c == 'N' || c == 'n'

/-- The spec-level GC count: characters of class `{G,C,g,c}` across all
records. -/
def gcCharCount (recs : List SequenceRecord) : ℕ :=
  (recs.map (fun r => r.seq.data.countP isGCchar)).sum

/-- The spec-level N count: characters of class `{N,n}` across all
records. -/
def nCharCount (recs : List SequenceRecord) : ℕ :=
  (recs.map (fun r => r.seq.data.countP isNchar)).sum

theorem count_gc_split (cs : List Char) :
    cs.count 'G' + cs.count 'C' + cs.count 'g' + cs.count 'c' =
      cs.countP isGCchar := by
  induction cs with
  | nil => rfl
  | cons a l ih =>
      simp only [List.count_cons, List.countP_cons, isGCchar]
      by_cases hG : a = 'G' <;> by_cases hC : a = 'C' <;>
        by_cases hg : a = 'g' <;> by_cases hc : a = 'c' <;>
        simp_all <;> omega

theorem count_n_split (cs : List Char) :
    cs.count 'N' + cs.count 'n' = cs.countP isNchar := by
  induction cs with
  | nil => rfl
  | cons a l ih =>
      simp only [List.count_cons, List.countP_cons, isNchar]
      by_cases hN : a = 'N' <;> by_cases hn : a = 'n' <;> simp_all <;> omega

theorem totalGCcount_eq (recs : List SequenceRecord) :
    totalGCcount recs = gcCharCount recs := by
  unfold totalGCcount gcCharCount countChar
  induction recs with
  | nil => rfl
  | cons r rs ih =>
      simp only [List.map_cons, List.sum_cons, ih, count_gc_split]

theorem totalNcount_eq (recs : List SequenceRecord) :
    totalNcount recs = nCharCount recs := by
  unfold totalNcount nCharCount countChar
  induction recs with
  | nil => rfl
  | cons r rs ih =>
      simp only [List.map_cons, List.sum_cons, ih, count_n_split]

/-- C5: `gc_content` is 100 times the count of `G/C/g/c` characters divided
by `total_length`, `n_content` is the analogous `N/n` percentage, both are
0 when `total_length` is 0, and every character counts toward
`total_length` while only the class characters count toward the numerators;
on records `GGCC` and `AATT` the GC content is `(4 / 8) * 100`. -/
theorem gc_n_content_spec (recs : List SequenceRecord) :
    (calculateStats recs).total_length = (recordLengths recs).sum ∧
    totalGCcount recs = gcCharCount recs ∧
    totalNcount recs = nCharCount recs ∧
    (0 < (calculateStats recs).total_length →
      (calculateStats recs).gc_content =
        100 * (gcCharCount recs : ℚ) / ((calculateStats recs).total_length : ℚ) ∧
      (calculateStats recs).n_content =
        100 * (nCharCount recs : ℚ) / ((calculateStats recs).total_length : ℚ)) ∧
    ((calculateStats recs).total_length = 0 →
      (calculateStats recs).gc_content = 0 ∧ (calculateStats recs).n_content = 0) ∧
    (calculateStats [⟨"r1", "GGCC"⟩, ⟨"r2", "AATT"⟩]).gc_content =
      (4 / 8 : ℚ) * 100 := by
  have htot : (calculateStats recs).total_length = (recordLengths recs).sum := by
    show (sortDesc (recordLengths recs)).sum = (recordLengths recs).sum
    exact sortDesc_sum _
  have hgc : (calculateStats recs).gc_content =
      if 0 < (sortDesc (recordLengths recs)).sum then
        ((totalGCcount recs : ℚ) / ((sortDesc (recordLengths recs)).sum : ℚ)) * 100
      else 0 := rfl
  have hnc : (calculateStats recs).n_content =
      if 0 < (sortDesc (recordLengths recs)).sum then
        ((totalNcount recs : ℚ) / ((sortDesc (recordLengths recs)).sum : ℚ)) * 100
      else 0 := rfl
  have htot' : (calculateStats recs).total_length =
      (sortDesc (recordLengths recs)).sum := rfl
  refine ⟨htot, totalGCcount_eq recs, totalNcount_eq recs, ?_, ?_, ?_⟩
  · intro hpos
    rw [htot'] at hpos
    constructor
    · rw [hgc, if_pos hpos, htot', totalGCcount_eq]
      have hne : ((sortDesc (recordLengths recs)).sum : ℚ) ≠ 0 := by
        exact_mod_cast Nat.pos_iff_ne_zero.mp hpos
      field_simp
      ring
    · rw [hnc, if_pos hpos, htot', totalNcount_eq]
      have hne : ((sortDesc (recordLengths recs)).sum : ℚ) ≠ 0 := by
        exact_mod_cast Nat.pos_iff_ne_zero.mp hpos
      field_simp
      ring
  · intro hzero
    rw [htot'] at hzero
    constructor
    · rw [hgc, if_neg (by omega)]
    · rw [hnc, if_neg (by omega)]
  · have e1 : totalGCcount [⟨"r1", "GGCC"⟩, ⟨"r2", "AATT"⟩] = 4 := by decide
    have e2 : (sortDesc (recordLengths [⟨"r1", "GGCC"⟩, ⟨"r2", "AATT"⟩])).sum = 8 := by
      decide
    have hgc2 : (calculateStats [⟨"r1", "GGCC"⟩, ⟨"r2", "AATT"⟩]).gc_content =
        if 0 < (sortDesc (recordLengths [⟨"r1", "GGCC"⟩, ⟨"r2", "AATT"⟩])).sum then
          ((totalGCcount [⟨"r1", "GGCC"⟩, ⟨"r2", "AATT"⟩] : ℚ) /
            ((sortDesc (recordLengths [⟨"r1", "GGCC"⟩, ⟨"r2", "AATT"⟩])).sum : ℚ)) * 100
        else 0 := rfl
    rw [hgc2, e1, e2, if_pos (by norm_num)]
    norm_num

theorem gc_n_content_spec_witness :
    0 < (calculateStats [⟨"r1", "GGCC"⟩, ⟨"r2", "AATT"⟩]).total_length ∧
    (calculateStats [⟨"r1", "GGCC"⟩, ⟨"r2", "AATT"⟩]).gc_content =
      100 * (gcCharCount [⟨"r1", "GGCC"⟩, ⟨"r2", "AATT"⟩] : ℚ) /
        ((calculateStats [⟨"r1", "GGCC"⟩, ⟨"r2", "AATT"⟩]).total_length : ℚ) :=
  ⟨by decide,
   ((gc_n_content_spec [⟨"r1", "GGCC"⟩, ⟨"r2", "AATT"⟩]).2.2.2.1 (by decide)).1⟩

/-! ### Case invariance of GC content -/

/-- The 26 upper/lower ASCII letter pairs. -/
def casePairs : List (Char × Char) :=
  [('A', 'a'), ('B', 'b'), ('C', 'c'), ('D', 'd'), ('E', 'e'), ('F', 'f'),
   ('G', 'g'), ('H', 'h'), ('I', 'i'), ('J', 'j'), ('K', 'k'), ('L', 'l'),
   ('M', 'm'), ('N', 'n'), ('O', 'o'), ('P', 'p'), ('Q', 'q'), ('R', 'r'),
   ('S', 's'), ('T', 't'), ('U', 'u'), ('V', 'v'), ('W', 'w'), ('X', 'x'),
   ('Y', 'y'), ('Z', 'z')]

/-- Two characters that are equal or opposite-case variants of one
another. -/
def caseVarChar (a b : Char) : Bool :=
  a == b ||
    casePairs.any (fun p => (p.1 == a && p.2 == b) || (p.1 == b && p.2 == a))

/-- Two residue strings that agree position-wise up to letter case. -/
def caseVarStr : List Char → List Char → Bool
  | [], [] => true
  | a :: s, b :: t => caseVarChar a b && caseVarStr s t
  | _, _ => false

/-- Two record lists whose residue strings agree position-wise up to
letter case. -/
def caseVarRecs : List SequenceRecord → List SequenceRecord → Bool
  | [], [] => true
  | r :: rs, r' :: rs' => caseVarStr r.seq.data r'.seq.data && caseVarRecs rs rs'
  | _, _ => false

theorem caseVarChar_classes {a b : Char} (h : caseVarChar a b = true) :
    isGCchar a = isGCchar b ∧ isNchar a = isNchar b := by
  simp only [caseVarChar, Bool.or_eq_true, beq_iff_eq, List.any_eq_true,
    Bool.and_eq_true] at h
  rcases h with rfl | ⟨p, hp, h⟩
  · exact ⟨rfl, rfl⟩
  · fin_cases hp <;> rcases h with ⟨rfl, rfl⟩ | ⟨rfl, rfl⟩ <;> exact ⟨rfl, rfl⟩

theorem caseVarStr_counts :
    ∀ {s t : List Char}, caseVarStr s t = true →
      s.length = t.length ∧
      s.countP isGCchar = t.countP isGCchar ∧
      s.countP isNchar = t.countP isNchar := by
  intro s
  induction s with
  | nil =>
      intro t h
      cases t with
      | nil => exact ⟨rfl, rfl, rfl⟩
      | cons b t' => exact absurd h (by simp [caseVarStr])
  | cons a s' ih =>
      intro t h
      cases t with
      | nil => exact absurd h (by simp [caseVarStr])
      | cons b t' =>
          simp only [caseVarStr, Bool.and_eq_true] at h
          obtain ⟨hab, hst⟩ := h
          obtain ⟨hlen, hgc, hn⟩ := ih hst
          obtain ⟨hgc1, hn1⟩ := caseVarChar_classes hab
          refine ⟨by simp [hlen], ?_, ?_⟩
          · simp [List.countP_cons, hgc, hgc1]
          · simp [List.countP_cons, hn, hn1]

theorem caseVarRecs_counts :
    ∀ {rs rs' : List SequenceRecord}, caseVarRecs rs rs' = true →
      recordLengths rs = recordLengths rs' ∧
      gcCharCount rs = gcCharCount rs' ∧
      nCharCount rs = nCharCount rs' := by
  intro rs
  induction rs with
  | nil =>
      intro rs' h
      cases rs' with
      | nil => exact ⟨rfl, rfl, rfl⟩
      | cons r' t' => exact absurd h (by simp [caseVarRecs])
  | cons r t ih =>
      intro rs' h
      cases rs' with
      | nil => exact absurd h (by simp [caseVarRecs])
      | cons r' t' =>
          simp only [caseVarRecs, Bool.and_eq_true] at h
          obtain ⟨hrr, htt⟩ := h
          obtain ⟨hlen, hgc, hn⟩ := caseVarStr_counts hrr
          obtain ⟨hlens, hgcs, hns⟩ := ih htt
          refine ⟨?_, ?_, ?_⟩
          · simp only [recordLengths, List.map_cons] at hlens ⊢
            rw [hlens]
            show r.seq.data.length :: _ = r'.seq.data.length :: _
            rw [hlen]
          · simp only [gcCharCount, List.map_cons, List.sum_cons] at hgcs ⊢
            rw [hgc, hgcs]
          · simp only [nCharCount, List.map_cons, List.sum_cons] at hns ⊢
            rw [hn, hns]

/-- C6: replacing residue characters by their opposite-case variants leaves
`gc_content` unchanged. -/
theorem gc_content_case_invariant (rs rs' : List SequenceRecord)
    (h : caseVarRecs rs rs' = true) :
    (calculateStats rs).gc_content = (calculateStats rs').gc_content := by
  obtain ⟨hlen, hgc, _⟩ := caseVarRecs_counts h
  have e : ∀ recs : List SequenceRecord, (calculateStats recs).gc_content =
      if 0 < (sortDesc (recordLengths recs)).sum then
        ((totalGCcount recs : ℚ) / ((sortDesc (recordLengths recs)).sum : ℚ)) * 100
      else 0 := fun _ => rfl
  rw [e, e, hlen, totalGCcount_eq, totalGCcount_eq, hgc]

theorem gc_content_case_invariant_witness :
    (calculateStats [⟨"r1", "AcGt"⟩]).gc_content =
      (calculateStats [⟨"r1", "aCgT"⟩]).gc_content :=
  gc_content_case_invariant [⟨"r1", "AcGt"⟩] [⟨"r1", "aCgT"⟩] (by decide)

/-! ### The loader and the analysis entry point

The file system and the FASTA parser (`Bio.SeqIO.parse`) are external to
the repository; they are abstract parameters here.  `fs` maps a path to
its content when the path exists; `parse` maps file content to the record
list when the content is parseable. -/

/-- Errors of the loader: `FileNotFoundError` (line 34) and the
`ValueError` wrapping every parse failure (lines 44-46). -/
inductive LoadError where
  | NotFoundError
  | ParseError
deriving DecidableEq, Repr

/-- `__init__` existence check plus `_load_sequences` (lines 27-46):
a missing path raises `FileNotFoundError`; an unparseable file or a parse
yielding zero records raises `ValueError`. -/
def load_sequences (fs : String → Option String)
    (parse : String → Option (List SequenceRecord)) (path : String) :
    Except LoadError (List SequenceRecord) :=
  match fs path with
  | none => .error .NotFoundError
  | some content =>
      match parse content with
      | none => .error .ParseError
      | some recs =>
          if recs.isEmpty then .error .ParseError else .ok recs

/-- `AssemblyAnalyzer(file)` (lines 27-37): load, then compute the stats;
no bundle is produced when loading fails. -/
def analyze (fs : String → Option String)
    (parse : String → Option (List SequenceRecord)) (path : String) :
    Except LoadError MetricsBundle :=
  match load_sequences fs parse path with
  | .error e => .error e
  | .ok recs => .ok (calculateStats recs)

/-- C7: loading fails with `NotFoundError` exactly when the path does not
exist, with `ParseError` exactly when the file exists but is unparseable
or parses to zero records; on success it returns the parsed records, and
no bundle is produced on failure. -/
theorem load_sequences_spec (fs : String → Option String)
    (parse : String → Option (List SequenceRecord)) (path : String) :
    (load_sequences fs parse path = .error .NotFoundError ↔ fs path = none) ∧
    (load_sequences fs parse path = .error .ParseError ↔
      ∃ c, fs path = some c ∧ (parse c = none ∨ parse c = some [])) ∧
    (∀ recs, load_sequences fs parse path = .ok recs ↔
      ∃ c, fs path = some c ∧ parse c = some recs ∧ recs ≠ []) ∧
    (∀ e, load_sequences fs parse path = .error e →
      analyze fs parse path = .error e) ∧
    (∀ recs, load_sequences fs parse path = .ok recs →
      analyze fs parse path = .ok (calculateStats recs)) := by
  rcases hfs : fs path with _ | c
  · refine ⟨by simp [load_sequences, hfs], ?_, ?_, ?_, ?_⟩
    · simp [load_sequences, hfs]
    · intro recs; simp [load_sequences, hfs]
    · intro e he; simp [analyze, he]
    · intro recs hr; simp [analyze, hr]
  · rcases hp : parse c with _ | recs0
    · have hload : load_sequences fs parse path = .error .ParseError := by
        simp [load_sequences, hfs, hp]
      refine ⟨by simp [hload, hfs], ?_, ?_, ?_, ?_⟩
      · rw [hload]
        exact ⟨fun _ => ⟨c, rfl, Or.inl hp⟩, fun _ => rfl⟩
      · intro recs; simp [hload, hfs, hp]
      · intro e he; simp [analyze, he]
      · intro recs hr; simp [analyze, hr]
    · cases recs0 with
      | nil =>
          have hload : load_sequences fs parse path = .error .ParseError := by
            simp [load_sequences, hfs, hp]
          refine ⟨by simp [hload, hfs], ?_, ?_, ?_, ?_⟩
          · rw [hload]
            exact ⟨fun _ => ⟨c, rfl, Or.inr hp⟩, fun _ => rfl⟩
          · intro recs
            rw [hload]
            constructor
            · intro h; cases h
            · rintro ⟨c', hc', hpc', hne⟩
              rw [Option.some.injEq] at hc'
              subst hc'
              rw [hp, Option.some.injEq] at hpc'
              exact absurd hpc'.symm hne
          · intro e he; simp [analyze, he]
          · intro recs hr; simp [analyze, hr]
      | cons r0 rest0 =>
          have hload : load_sequences fs parse path = .ok (r0 :: rest0) := by
            simp [load_sequences, hfs, hp]
          refine ⟨by simp [hload, hfs], ?_, ?_, ?_, ?_⟩
          · rw [hload]
            constructor
            · intro h; cases h
            · rintro ⟨c', hc', hpc' | hpc'⟩ <;>
                · rw [Option.some.injEq] at hc'
                  subst hc'
                  rw [hp] at hpc'
                  cases hpc'
          · intro recs
            rw [hload]
            constructor
            · intro h
              cases h
              exact ⟨c, rfl, hp, by simp⟩
            · rintro ⟨c', hc', hpc', _⟩
              rw [Option.some.injEq] at hc'
              subst hc'
              rw [hp, Option.some.injEq] at hpc'
              rw [← hpc']
          · intro e he; simp [analyze, he]
          · intro recs hr; simp [analyze, hr]

theorem load_sequences_spec_witness :
    load_sequences (fun _ => none) (fun _ => none) "missing.fasta" =
      .error .NotFoundError :=
  (load_sequences_spec (fun _ => none) (fun _ => none) "missing.fasta").1.mpr rfl

/-! ### Comparison mode -/

/-- `Path(file).stem` (line 232): final path component with its last
extension removed; a leading-dot name with no further dot keeps the dot. -/
def stem (path : String) : String :=
  let name := (path.splitOn "/").getLastD ""
  match name.splitOn "." with
  | [] => name
  | [_] => name
  | parts =>
      if name.startsWith "." && parts.length == 2 then name
      else String.intercalate "." parts.dropLast

/-- Whether `AssemblyAnalyzer(file)` raises for this input. -/
def loadFails (fs : String → Option String)
    (parse : String → Option (List SequenceRecord)) (f : String) : Bool :=
  match analyze fs parse f with
  | .ok _ => false
  | .error _ => true

/-- The per-file result used by successful comparison inputs. -/
def analyzeOk (fs : String → Option String)
    (parse : String → Option (List SequenceRecord)) (f : String) :
    Option (String × MetricsBundle) :=
  match analyze fs parse f with
  | .ok b => some (stem f, b)
  | .error _ => none

/-- The accumulation loop of `compare_assemblies` (lines 225-235): each
input is analyzed; a failure is recorded as a warning and skipped, a
success contributes its name and bundle. -/
def collectAnalyzers (fs : String → Option String)
    (parse : String → Option (List SequenceRecord)) :
    List String → List String × List (String × MetricsBundle)
  | [] => ([], [])
  | f :: rest =>
      let r := collectAnalyzers fs parse rest
      match analyze fs parse f with
      | .ok b => (r.1, (stem f, b) :: r.2)
      | .error _ => (f :: r.1, r.2)

/-- `compare_assemblies` (lines 223-256): run the loop, then bail out with
no comparison output when fewer than two inputs loaded; otherwise expose
the name-keyed bundles.  The first component is the list of warned inputs,
the second the comparison data (`none` when no output is produced). -/
def compare_assemblies (fs : String → Option String)
    (parse : String → Option (List SequenceRecord)) (files : List String) :
    List String × Option (List (String × MetricsBundle)) :=
  let r := collectAnalyzers fs parse files
  if r.2.length < 2 then (r.1, none) else (r.1, some r.2)

theorem collectAnalyzers_eq (fs : String → Option String)
    (parse : String → Option (List SequenceRecord)) (files : List String) :
    collectAnalyzers fs parse files =
      (files.filter (loadFails fs parse), files.filterMap (analyzeOk fs parse)) := by
  induction files with
  | nil => rfl
  | cons f rest ih =>
      simp only [collectAnalyzers, ih, List.filter_cons, List.filterMap_cons]
      rcases ha : analyze fs parse f with e | b <;>
        simp [loadFails, analyzeOk, ha]

/-- C8: in comparison mode every input that fails to load is warned about
and excluded, processing continues with the rest; with fewer than two
valid inputs no comparison output is produced, and with at least two the
output is exactly the name-keyed bundles of the valid inputs. -/
theorem compare_assemblies_spec (fs : String → Option String)
    (parse : String → Option (List SequenceRecord)) (files : List String) :
    (compare_assemblies fs parse files).1 = files.filter (loadFails fs parse) ∧
    ((compare_assemblies fs parse files).2 = none ↔
      (files.filterMap (analyzeOk fs parse)).length < 2) ∧
    (2 ≤ (files.filterMap (analyzeOk fs parse)).length →
      (compare_assemblies fs parse files).2 =
        some (files.filterMap (analyzeOk fs parse))) := by
  unfold compare_assemblies
  rw [collectAnalyzers_eq]
  by_cases h : (files.filterMap (analyzeOk fs parse)).length < 2
  · rw [if_pos h]
    exact ⟨rfl, ⟨fun _ => h, fun _ => rfl⟩, fun h2 => absurd h (by omega)⟩
  · rw [if_neg h]
    refine ⟨rfl, ?_, fun _ => rfl⟩
    constructor
    · intro he; cases he
    · intro hlt; exact absurd hlt h

theorem compare_assemblies_spec_witness :
    (compare_assemblies
      (fun p => if p = "good.fasta" then some "ok" else none)
      (fun c => if c = "ok" then some [⟨"r", "ACGT"⟩] else none)
      ["good.fasta", "bad.fasta"]).1 = ["bad.fasta"] ∧
    (compare_assemblies
      (fun p => if p = "good.fasta" then some "ok" else none)
      (fun c => if c = "ok" then some [⟨"r", "ACGT"⟩] else none)
      ["good.fasta", "bad.fasta"]).2 = none := by
  have h := compare_assemblies_spec
    (fun p => if p = "good.fasta" then some "ok" else none)
    (fun c => if c = "ok" then some [⟨"r", "ACGT"⟩] else none)
    ["good.fasta", "bad.fasta"]
  refine ⟨?_, h.2.1.mpr (by decide)⟩
  rw [h.1]
  decide

/-! ### The persisted basic-statistics mapping -/

/-- Values stored in the `self.stats` dictionary. -/
inductive StatValue where
  | ofStr (v : String)
  | ofNat (v : ℕ)
  | ofRat (v : ℚ)
  | ofList (v : List ℕ)
deriving DecidableEq, Repr

/-- The `self.stats` dictionary (lines 77-92), in insertion order: the
`file` path first, then the bundle fields, ending with `lengths`. -/
def statsDict (file : String) (recs : List SequenceRecord) :
    List (String × StatValue) :=
  let b := calculateStats recs
  [("file", .ofStr file),
   ("num_contigs", .ofNat b.num_contigs),
   ("total_length", .ofNat b.total_length),
   ("longest_contig", .ofNat b.longest_contig),
   ("shortest_contig", .ofNat b.shortest_contig),
   ("mean_length", .ofRat b.mean_length),
   ("median_length", .ofRat b.median_length),
   ("n50", .ofNat b.n50),
   ("n90", .ofNat b.n90),
   ("l50", .ofNat b.l50),
   ("l90", .ofNat b.l90),
   ("gc_content", .ofRat b.gc_content),
   ("n_content", .ofRat b.n_content),
   ("lengths", .ofList b.lengths)]

/-- `get_basic_stats` (lines 104-106): every entry of the stats dictionary
except `lengths`. -/
def get_basic_stats (file : String) (recs : List SequenceRecord) :
    List (String × StatValue) :=
  (statsDict file recs).filter (fun kv => kv.1 != "lengths")

/-- The MetricsBundle field names of the spec's data model (spec section 3),
in order. -/
def metricsBundleFields : List String :=
  ["num_contigs", "total_length", "longest_contig", "shortest_contig",
   "mean_length", "median_length", "n50", "n90", "l50", "l90",
   "gc_content", "n_content", "lengths"]

/-- C10: the persisted basic-statistics mapping holds exactly the `file`
path plus every MetricsBundle field except `lengths`, with the values taken
from the computed bundle. -/
theorem get_basic_stats_spec (file : String) (recs : List SequenceRecord) :
    (get_basic_stats file recs).map Prod.fst =
      "file" :: metricsBundleFields.filter (fun k => k != "lengths") ∧
    ("file", StatValue.ofStr file) ∈ get_basic_stats file recs ∧
    (∀ k, k ∈ metricsBundleFields → k ≠ "lengths" →
      k ∈ (get_basic_stats file recs).map Prod.fst) ∧
    "lengths" ∉ (get_basic_stats file recs).map Prod.fst ∧
    get_basic_stats file recs =
      [("file", .ofStr file),
       ("num_contigs", .ofNat (calculateStats recs).num_contigs),
       ("total_length", .ofNat (calculateStats recs).total_length),
       ("longest_contig", .ofNat (calculateStats recs).longest_contig),
       ("shortest_contig", .ofNat (calculateStats recs).shortest_contig),
       ("mean_length", .ofRat (calculateStats recs).mean_length),
       ("median_length", .ofRat (calculateStats recs).median_length),
       ("n50", .ofNat (calculateStats recs).n50),
       ("n90", .ofNat (calculateStats recs).n90),
       ("l50", .ofNat (calculateStats recs).l50),
       ("l90", .ofNat (calculateStats recs).l90),
       ("gc_content", .ofRat (calculateStats recs).gc_content),
       ("n_content", .ofRat (calculateStats recs).n_content)] := by
  have hd : get_basic_stats file recs =
      [("file", .ofStr file),
       ("num_contigs", .ofNat (calculateStats recs).num_contigs),
       ("total_length", .ofNat (calculateStats recs).total_length),
       ("longest_contig", .ofNat (calculateStats recs).longest_contig),
       ("shortest_contig", .ofNat (calculateStats recs).shortest_contig),
       ("mean_length", .ofRat (calculateStats recs).mean_length),
       ("median_length", .ofRat (calculateStats recs).median_length),
       ("n50", .ofNat (calculateStats recs).n50),
       ("n90", .ofNat (calculateStats recs).n90),
       ("l50", .ofNat (calculateStats recs).l50),
       ("l90", .ofNat (calculateStats recs).l90),
       ("gc_content", .ofRat (calculateStats recs).gc_content),
       ("n_content", .ofRat (calculateStats recs).n_content)] := by
    unfold get_basic_stats statsDict
    simp [List.filter]
  refine ⟨?_, ?_, ?_, ?_, hd⟩
  · rw [hd]; rfl
  · rw [hd]; simp
  · intro k hk hne
    rw [hd]
    simp only [metricsBundleFields, List.mem_cons, List.not_mem_nil, or_false] at hk
    rcases hk with rfl | rfl | rfl | rfl | rfl | rfl | rfl | rfl | rfl | rfl | rfl | rfl | rfl <;>
      first
        | exact absurd rfl hne
        | simp
  · rw [hd]; simp

theorem get_basic_stats_spec_witness :
    "n50" ∈ (get_basic_stats "a.fasta" [⟨"r", "ACGT"⟩]).map Prod.fst :=
  (get_basic_stats_spec "a.fasta" [⟨"r", "ACGT"⟩]).2.2.1 "n50"
    (by simp [metricsBundleFields]) (by decide)
